import Mathlib

/-!
Verification of the IBEM financial-dashboard ingestion pipeline (`app.py`).

The pipeline's logic-bearing parts are embedded shallowly:
* money parsing (`parse_money_series._to_float`) over exact rationals,
* column resolution (`find_column` over candidate lists),
* date/period derivation (`ensure_date_column`, `ano_mes`),
* the row-validity filter (dropna + zero exclusion),
* the user filters (search / value range / month) and the aggregates
  (`total_pago`, `qtd_lanc`, ranking),
* CSV export of the filtered working set.

Machine floats are modelled as exact rationals (ℚ); `NaN` as `Option.none`.
Character classes (`\d`, `\s` in the source regexes and `str.strip`)
are modelled over their ASCII ranges, which cover every input class the
pipeline's own documentation and examples use.
-/

namespace Ibem

/-- ASCII decimal digit test, the model of the regex class `\d`. -/
def isDig (c : Char) : Bool := c.isDigit

/-- ASCII whitespace, the model of the regex class `\s` and of `str.strip`. -/
def isWS (c : Char) : Bool :=
  c = ' ' || c = '\t' || c = '\n' || c = '\r' || c = '\x0b' || c = '\x0c'

/-- Left-strip of whitespace (one side of Python `str.strip`). -/
def lstrip (l : List Char) : List Char := l.dropWhile isWS

/-- Right-strip of whitespace (the other side of Python `str.strip`). -/
def rstrip (l : List Char) : List Char := (l.reverse.dropWhile isWS).reverse

/-- Python `str.strip`: drop whitespace from both ends. -/
def pyStripList (l : List Char) : List Char := rstrip (lstrip l)

/-- Python `str.strip` on `String`s. -/
def pyStrip (s : String) : String := String.mk (pyStripList s.data)

/-- Model of `re.sub(r"[Rr]\$|\s", "", txt)`: a left-to-right scan deleting
each occurrence of `R$`/`r$` and every whitespace character. -/
def stripCurrency : List Char → List Char
  | [] => []
  | [c] => if isWS c then [] else [c]
  | c :: d :: rest =>
    if (c = 'R' ∨ c = 'r') ∧ d = '$' then stripCurrency rest
    else if isWS c then stripCurrency (d :: rest)
    else c :: stripCurrency (d :: rest)

/-- Numeric value of a digit string (most significant first), as in
`int`/`float` reading of a digit run: `digitsToNat ['1','2'] = 12`. -/
def digitsToNat (l : List Char) : ℕ :=
  l.foldl (fun a c => 10 * a + (c.toNat - 48)) 0

/-- Tail of the pt-BR money regex after the first group separator:
either `,\d\d` at the very end, or another `.\d\d\d` group. -/
def afterGroups : List Char → Bool
  | ',' :: d :: e :: [] => isDig d && isDig e
  | '.' :: a :: b :: c :: rest => isDig a && isDig b && isDig c && afterGroups rest
  | _ => false

/-- The mandatory first `.\d\d\d` group of the pt-BR money regex. -/
def firstGroup : List Char → Bool
  | '.' :: a :: b :: c :: rest => isDig a && isDig b && isDig c && afterGroups rest
  | _ => false

/-- Model of `re.match(r"^\d{1,3}(\.\d{3})+,\d{2}$", txt)`: since a digit can
never start a group separator, the leading `\d{1,3}` must be the maximal
initial digit run, of length 1–3. -/
def matchesPtBR (l : List Char) : Bool :=
  let lead := l.takeWhile isDig
  decide (1 ≤ lead.length) && decide (lead.length ≤ 3) && firstGroup (l.dropWhile isDig)

/-- Model of Python `str.split(".")`. -/
def splitOnDot : List Char → List (List Char)
  | [] => [[]]
  | '.' :: rest => [] :: splitOnDot rest
  | c :: rest =>
    match splitOnDot rest with
    | [] => [[c]]
    | g :: gs => (c :: g) :: gs

/-- Model of `"".join(parts[:-1]) + "." + parts[-1]` where
`parts = txt.split(".")` — keep only the last period. -/
def mergeDots (l : List Char) : List Char :=
  let parts := splitOnDot l
  parts.dropLast.flatten ++ '.' :: parts.getLastD []

/-- Model of Python `float()` on the plain decimal literals the pipeline can
produce after its rewriting steps: optional sign, then a digit run, an
optional period, and an optional fractional digit run (at least one digit
overall).  Exponent/underscore/`inf` literal forms never arise here. -/
def parseUnsigned? (l : List Char) : Option ℚ :=
  let ip := l.takeWhile isDig
  match l.dropWhile isDig with
  | [] => if ip.isEmpty then none else some (digitsToNat ip : ℚ)
  | c :: fs =>
    if c = '.' then
      if fs.all isDig && !(ip.isEmpty && fs.isEmpty) then
        some ((digitsToNat ip : ℚ) + (digitsToNat fs : ℚ) / 10 ^ fs.length)
      else none
    else none

/-- Signed version of `parseUnsigned?` (Python `float()` accepts one sign). -/
def parseDecimal? (l : List Char) : Option ℚ :=
  match l with
  | [] => none
  | c :: r =>
    if c = '+' then parseUnsigned? r
    else if c = '-' then (parseUnsigned? r).map (fun q => -q)
    else parseUnsigned? (c :: r)

/-- The branching core of `_to_float` on the already-stripped text
(app.py lines 72–87): the pt-BR grouped pattern drops the periods and turns
the comma into a period; otherwise a lone comma becomes the decimal point
and with several periods all but the last are dropped; finally `float()`. -/
def toFloatText (txt : List Char) : Option ℚ :=
  if matchesPtBR txt then
    parseDecimal? ((txt.filter (fun c => !(c == '.'))).map (fun c => if c = ',' then '.' else c))
  else
    let txt1 := if txt.any (fun c => c == ',') && !(txt.any (fun c => c == '.')) then
                  txt.map (fun c => if c = ',' then '.' else c)
                else txt
    let txt2 := if txt1.count '.' > 1 then mergeDots txt1 else txt1
    parseDecimal? txt2

/-- Model of `parse_money_series._to_float` (app.py lines 64–87).  `none`
models `NaN` on both sides: a missing cell in, an unparseable text out. -/
def toFloat : Option String → Option ℚ
  | none => none
  | some v => toFloatText (stripCurrency (pyStripList v.data))

/-- Model of `parse_money_series` on a textual column (app.py line 89). -/
def parse_money_series (col : List (Option String)) : List (Option ℚ) :=
  col.map toFloat

/-- Calendar date as produced by `pd.to_datetime(..., dayfirst=True)`; only the
year and month matter downstream (`to_period("M")`).  An unparseable or
missing date is `Option.none` (pandas `NaT`). -/
structure PyDate where
  year : ℕ
  month : ℕ
deriving DecidableEq

/-- Decimal digit characters of a natural number, most significant first,
with an explicit fuel argument so the kernel can evaluate it. -/
def renderNatFuel : ℕ → ℕ → List Char
  | 0, _ => []
  | fuel + 1, n =>
    if n = 0 then []
    else renderNatFuel fuel (n / 10) ++ [Nat.digitChar (n % 10)]

/-- Decimal digit characters of a natural number (`"0"` for zero). -/
def renderNat (n : ℕ) : List Char :=
  if n = 0 then ['0'] else renderNatFuel n n

/-- Left-pad a digit string with `'0'` up to a given width. -/
def padLeftZeros (w : ℕ) (l : List Char) : List Char :=
  List.replicate (w - l.length) '0' ++ l

/-- Model of `df["ano_mes"] = df["data_lancamento"].dt.to_period("M").astype(str)`
(app.py line 108): a present date becomes its zero-padded `"YYYY-MM"` label,
while a missing date (`NaT`) is stringified by `astype(str)` to `"NaT"`. -/
def anoMesStr : Option PyDate → String
  | none => "NaT"
  | some d => String.mk (padLeftZeros 4 (renderNat d.year) ++ '-' :: padLeftZeros 2 (renderNat d.month))

/-- One raw CSV row after column resolution: the party-name cell, the amount
cell (textual; `none` for a missing cell), and the already-coerced payment
date (the model's stand-in for `pd.to_datetime` on the date cell, whose
string-level parsing no claim depends on). -/
structure RawRow where
  nome : String
  valor : Option String
  dataL : Option PyDate
deriving DecidableEq

/-- A cleaned record of the dashboard's working table (app.py lines 166–175):
trimmed party name, parsed amount, coerced date, and derived period label. -/
structure Row where
  fornecedor_funcionario : String
  valor_pago : ℚ
  data_lancamento : Option PyDate
  ano_mes : String
deriving DecidableEq

/-- The cleaning step for one row: `fornecedor_funcionario` is
`astype(str).str.strip()` of the name cell, `valor_pago` is
`parse_money_series` of the amount cell (`none` = NaN), and `ano_mes` is the
stringified period. -/
def mkRow? (r : RawRow) : Option Row :=
  (toFloat r.valor).map (fun q => ⟨pyStrip r.nome, q, r.dataL, anoMesStr r.dataL⟩)

/-- The working set (app.py lines 166–179): build the cleaned columns, then
`dropna(subset=["valor_pago"])` and drop rows with `valor_pago == 0`. -/
def workingSet (rows : List RawRow) : List Row :=
  (rows.filterMap mkRow?).filter (fun r => decide (r.valor_pago ≠ 0))

/-- ASCII lower-casing of one character (`str.lower` on the alphabet the
keyword rules and searches use). -/
def lowerChar (c : Char) : Char :=
  if 'A' ≤ c ∧ c ≤ 'Z' then Char.ofNat (c.toNat + 32) else c

/-- `str.lower` on a string. -/
def lowerStr (s : String) : String := String.mk (s.data.map lowerChar)

/-- `needle` is a prefix of `hay`. -/
def listStartsWith : List Char → List Char → Bool
  | _, [] => true
  | [], _ :: _ => false
  | a :: as, b :: bs => a = b && listStartsWith as bs

/-- Substring containment (Python `in` on strings). -/
def listContainsSub : List Char → List Char → Bool
  | [], needle => needle.isEmpty
  | h :: t, needle => listStartsWith (h :: t) needle || listContainsSub t needle

/-- Case-insensitive substring containment, the model of
`Series.str.contains(search, case=False)` on the literal (regex-free)
search strings the spec describes. -/
def containsCI (hay needle : String) : Bool :=
  listContainsSub (hay.data.map lowerChar) (needle.data.map lowerChar)

/-- Model of `find_column` (app.py lines 43–48): the first candidate name
present among the (already normalized) headers. -/
def find_column (cols candidates : List String) : Option String :=
  candidates.find? (fun c => cols.contains c)

/-- Candidate names for the identifier column (app.py line 154). -/
def numCandidates : List String := ["numero_lancamento", "n_lanc", "num", "numero"]

/-- Candidate names for the party-name column (app.py line 155). -/
def nomeCandidates : List String :=
  ["fornecedor_funcionario", "fornecedor", "funcionario", "nome", "beneficiario"]

/-- Candidate names for the amount column (app.py line 156). -/
def valorCandidates : List String := ["valor_pago", "valor", "pago", "valor_total"]

/-- The column names the pipeline continues with when resolution succeeds. -/
structure ResolvedCols where
  col_num : Option String
  col_nome : String
  col_valor : String
deriving DecidableEq

/-- Outcome of required-column resolution: either the pipeline continues with
the resolved names, or it aborts, surfacing the discovered header list
(`st.error` + `st.write(list(df.columns))` + `st.stop`). -/
inductive ResolveResult where
  | fatal (foundHeaders : List String)
  | ok (cols : ResolvedCols)
deriving DecidableEq

/-- Model of app.py lines 154–164: resolve identifier, party and amount
columns; abort (reporting the headers) unless party and amount both
resolved.  The identifier (and any date column) may be absent. -/
def resolveColumns (cols : List String) : ResolveResult :=
  match find_column cols nomeCandidates, find_column cols valorCandidates with
  | some n, some v => .ok ⟨find_column cols numCandidates, n, v⟩
  | _, _ => .fatal cols

/-- The user-facing filter state (app.py lines 186–205): search text, the
value-range slider, and the selected month (`none` both for `"(Todos)"`
and for a dataset with no dates, where the month filter is disabled). -/
structure Filters where
  search : String
  vmin : ℚ
  vmax : ℚ
  selMes : Option String

/-- The party-search predicate (app.py line 209). -/
def searchPred (s : String) (r : Row) : Bool :=
  containsCI r.fornecedor_funcionario s

/-- The inclusive value-range predicate (app.py line 210). -/
def rangePred (vmin vmax : ℚ) (r : Row) : Bool :=
  decide (vmin ≤ r.valor_pago) && decide (r.valor_pago ≤ vmax)

/-- The exact-month predicate (app.py line 212). -/
def mesPred (m : String) (r : Row) : Bool :=
  r.ano_mes = m

/-- Model of app.py lines 207–212: apply search (only when the stripped
search text is non-empty), then the value range, then the month. -/
def applyFilters (f : Filters) (rows : List Row) : List Row :=
  let r1 := if pyStrip f.search = "" then rows else rows.filter (searchPred f.search)
  let r2 := r1.filter (rangePred f.vmin f.vmax)
  match f.selMes with
  | none => r2
  | some m => r2.filter (mesPred m)

/-- `float(filtered["valor_pago"].sum())` (app.py line 220). -/
def total_pago (rows : List Row) : ℚ := (rows.map (·.valor_pago)).sum

/-- `int(len(filtered))` (app.py line 221). -/
def qtd_lanc (rows : List Row) : ℕ := rows.length

/-- Insertion of one element into a sorted list (stable to the left). -/
def insertSorted (le : α → α → Bool) (x : α) : List α → List α
  | [] => [x]
  | y :: ys => if le x y then x :: y :: ys else y :: insertSorted le x ys

/-- Insertion sort with an explicit boolean order. -/
def sortByB (le : α → α → Bool) (l : List α) : List α :=
  l.foldr (insertSorted le) []

/-- Code-point lexicographic order on strings (Python `sorted` on `str`). -/
def strLe (a b : String) : Bool :=
  go a.data b.data
where
  go : List Char → List Char → Bool
    | [], _ => true
    | _ :: _, [] => false
    | x :: xs, y :: ys => x.toNat < y.toNat || (x = y && go xs ys)

/-- The distinct parties, in the ascending key order `groupby` produces. -/
def partyKeys (rows : List Row) : List String :=
  sortByB strLe (rows.map (·.fornecedor_funcionario)).dedup

/-- `groupby("fornecedor_funcionario")["valor_pago"].sum()` (app.py lines
237–239): one `(party, sum)` entry per distinct party. -/
def partyTotals (rows : List Row) : List (String × ℚ) :=
  (partyKeys rows).map
    (fun p => (p, total_pago (rows.filter (fun r => r.fornecedor_funcionario == p))))

/-- `sort_values("valor_pago", ascending=False).head(top_n)` (app.py lines
240–241) over the per-party totals. -/
def rank (topN : ℕ) (rows : List Row) : List (String × ℚ) :=
  (sortByB (fun a b => decide (b.2 ≤ a.2)) (partyTotals rows)).take topN

/-- `sorted(df["ano_mes"].dropna().unique().tolist())` (app.py line 201):
the selectable month labels.  The column is a string column (so `dropna`
removes nothing) and `unique` keeps first occurrences. -/
def mesesList (rows : List Row) : List String :=
  sortByB strLe (rows.map (·.ano_mes)).dedup

/-- `float(df["valor_pago"].min())` (app.py line 193), the slider's default
lower bound. -/
def colMin (rows : List Row) : ℚ :=
  match rows.map (·.valor_pago) with
  | [] => 0
  | x :: xs => xs.foldl min x

/-- `float(df["valor_pago"].max())` (app.py line 194), the slider's default
upper bound. -/
def colMax (rows : List Row) : ℚ :=
  match rows.map (·.valor_pago) with
  | [] => 0
  | x :: xs => xs.foldl max x

/-- Whether one keyword of the rule's keyword list occurs in the (already
lower-cased) description. -/
def ruleMatches (desc : List Char) (rule : String × List String) : Bool :=
  rule.2.any (fun kw => listContainsSub desc kw.data)

/-- Modelled from the spec: the keyword classifier of the enriched-ledger
variant is not part of `src/` (the spec's §4.4 describes it; `app.py`
contains no classifier).  Lower-case the description, then walk the ordered
`(category, keywords)` rule list and return the first category one of whose
keywords occurs in the description; with no match, return `"Uncategorized"`. -/
def classify (rules : List (String × List String)) (desc : String) : String :=
  match rules.find? (ruleMatches (desc.data.map lowerChar)) with
  | some r => r.1
  | none => "Uncategorized"

/-- The digit body of a decimal rendering: `n` padded to at least `k+1`
digits, with (for `k > 0`) the decimal point before the last `k` digits. -/
def renderDecDigits (n k : ℕ) : List Char :=
  if k = 0 then padLeftZeros (k + 1) (renderNat n)
  else
    (padLeftZeros (k + 1) (renderNat n)).take ((padLeftZeros (k + 1) (renderNat n)).length - k) ++
      '.' :: (padLeftZeros (k + 1) (renderNat n)).drop ((padLeftZeros (k + 1) (renderNat n)).length - k)

/-- Decimal rendering of the exact value `m / 10^k`, the raw machine-readable
form in which the exporter (app.py lines 287–289, `to_csv` on the unformatted
`filtered` frame) emits a monetary value with `k` emitted decimal places. -/
def renderDec (m : ℤ) (k : ℕ) : String :=
  String.mk (if m < 0 then '-' :: renderDecDigits m.natAbs k else renderDecDigits m.natAbs k)

/-- The grouped-thousands pt-BR text body `\d{1,3}(\.\d{3})+,\d{2}`:
a leading group, the dot-prefixed groups of three, and the two cent digits. -/
def ptBRBody (g0 : List Char) (gs : List (List Char)) (c1 c2 : Char) : List Char :=
  g0 ++ (gs.map (fun g => '.' :: g)).flatten ++ ',' :: [c1, c2]

/-- The two-row scenario input of claim C3. -/
def c3rows : List RawRow :=
  [⟨"ACME", some "1.234,56", none⟩, ⟨"ACME", some "R$ 50,00", none⟩]

/-- The C3 scenario's filtered table: the working set under the default
filter state (empty search, full value range, no month selected). -/
def c3filtered : List Row :=
  applyFilters ⟨"", colMin (workingSet c3rows), colMax (workingSet c3rows), none⟩
    (workingSet c3rows)

end Ibem


namespace Ibem

unseal Rat.add Rat.mul Rat.inv Rat.sub in
/-- C3: on the two-row input `[{party:"ACME", amount:"1.234,56"},
{party:"ACME", amount:"R$ 50,00"}]` with no filters applied, the pipeline
produces `ranked_party_totals = {"ACME": 1284.56}`, `total = 1284.56` and
`count = 2`: the currency symbol is stripped, the comma read as decimal
point, and the per-party sums grouped. -/
theorem c3_two_row_scenario :
    rank 20 c3filtered = [("ACME", (128456 : ℚ) / 100)] ∧
    total_pago c3filtered = (128456 : ℚ) / 100 ∧
    qtd_lanc c3filtered = 2 := by decide

unseal Rat.add Rat.mul Rat.inv Rat.sub in
/-- C10: the textual amount `"1.234"` (grouped-thousands integer shape with
no comma decimal part) parses to the value 1.234: the grouped-thousands rule
needs a comma with two trailing digits, so the string falls through to direct
decimal parsing and the single period is read as a decimal point. -/
theorem c10_single_period_is_decimal_point :
    toFloat (some "1.234") = some ((1234 : ℚ) / 1000) := by decide

unseal Rat.add Rat.mul Rat.inv Rat.sub in
/-- C5 counterexample: a row whose party cell is whitespace-only (empty after
trim) but whose amount is valid is NOT excluded — the working set keeps a
record with an empty `fornecedor_funcionario`, which reaches the
filter/aggregation stage (`count = 1`). -/
theorem c5_counterexample_empty_party_kept :
    workingSet [⟨"  ", some "50,00", none⟩] = [⟨"", 50, none, "NaT"⟩] ∧
    qtd_lanc (workingSet [⟨"  ", some "50,00", none⟩]) = 1 := by decide

unseal Rat.add Rat.mul Rat.inv Rat.sub in
/-- C6 (code bug evidence): for a record with a missing/unparseable payment
date the `ano_mes` column is not absent but the literal string `"NaT"`
(`astype(str)` of `NaT`), and that string reaches the month-filter domain;
for a present date the label is the derived `"YYYY-MM"`. -/
theorem c6_period_key_is_nat_string :
    anoMesStr none = "NaT" ∧
    anoMesStr (some ⟨2024, 3⟩) = "2024-03" ∧
    (workingSet [⟨"ACME", some "50,00", none⟩]).map Row.ano_mes = ["NaT"] ∧
    mesesList (workingSet [⟨"ACME", some "50,00", none⟩]) = ["NaT"] := by decide

/-- C7 counterexample: with discovered headers `["valor_pago"]` the amount
column resolves and the party column does not, so "both absent" is false —
yet the pipeline aborts.  Hence "aborts exactly when BOTH the party-name and
the amount field are absent" fails on the code. -/
theorem c7_counterexample_one_column_aborts :
    ¬ (resolveColumns ["valor_pago"] = ResolveResult.fatal ["valor_pago"] ↔
       (find_column ["valor_pago"] nomeCandidates = none ∧
        find_column ["valor_pago"] valorCandidates = none)) := by decide

/-- C7 (amended): the pipeline aborts — reporting the discovered header
set — exactly when the party-name column OR the amount column is
unresolvable; whenever both resolve it continues, with the identifier
column merely optional. -/
theorem c7_amended_abort_iff_either_missing (cols : List String) :
    (resolveColumns cols = ResolveResult.fatal cols ↔
      (find_column cols nomeCandidates = none ∨ find_column cols valorCandidates = none)) ∧
    (∀ n v, find_column cols nomeCandidates = some n →
      find_column cols valorCandidates = some v →
      resolveColumns cols = ResolveResult.ok ⟨find_column cols numCandidates, n, v⟩) := by
  unfold resolveColumns
  rcases hn : find_column cols nomeCandidates with _ | n <;>
    rcases hv : find_column cols valorCandidates with _ | v <;> simp

/-- Witness for the amended C7: a header set with party and amount (but no
identifier) resolves and continues; a header set with neither aborts. -/
theorem c7_amended_witness :
    resolveColumns ["data", "nome", "valor"] = ResolveResult.ok ⟨none, "nome", "valor"⟩ ∧
    resolveColumns ["foo"] = ResolveResult.fatal ["foo"] := by
  constructor
  · exact (c7_amended_abort_iff_either_missing ["data", "nome", "valor"]).2 "nome" "valor"
      (by decide) (by decide)
  · exact (c7_amended_abort_iff_either_missing ["foo"]).1.mpr (Or.inl (by decide))

/-- Auxiliary: composing two list filters tests the conjunction. -/
theorem filter_filter_eq_and (p q : α → Bool) (l : List α) :
    (l.filter p).filter q = l.filter (fun a => p a && q a) := by
  induction l with
  | nil => rfl
  | cons a t ih =>
    by_cases hp : p a <;> by_cases hq : q a <;>
      simp [List.filter_cons, hp, hq, ih]

/-- Auxiliary: two list filters commute. -/
theorem filter_swap (p q : α → Bool) (l : List α) :
    (l.filter p).filter q = (l.filter q).filter p := by
  rw [filter_filter_eq_and, filter_filter_eq_and]
  refine List.filter_congr (fun a _ => ?_)
  exact Bool.and_comm (p a) (q a)

/-- C8: the record filters commute — for any working set and any pair among
the party-search, value-range and month predicates, the two application
orders produce the same subset, namely the filter by the conjunction
(intersection); filtering is pure, so the source list is never mutated. -/
theorem c8_filters_commute (rows : List Row) (s : String) (vmin vmax : ℚ) (m : String) :
    ((rows.filter (searchPred s)).filter (rangePred vmin vmax) =
      (rows.filter (rangePred vmin vmax)).filter (searchPred s)) ∧
    ((rows.filter (searchPred s)).filter (mesPred m) =
      (rows.filter (mesPred m)).filter (searchPred s)) ∧
    ((rows.filter (rangePred vmin vmax)).filter (mesPred m) =
      (rows.filter (mesPred m)).filter (rangePred vmin vmax)) ∧
    ((rows.filter (searchPred s)).filter (rangePred vmin vmax) =
      rows.filter (fun r => searchPred s r && rangePred vmin vmax r)) :=
  ⟨filter_swap _ _ rows, filter_swap _ _ rows, filter_swap _ _ rows,
   filter_filter_eq_and _ _ rows⟩

/-- C5 (amended): rows are excluded from the working set only for a missing
(unparseable) or zero amount; the party-name cell is trimmed but never
validated, so the working set can contain records whose
`fornecedor_funcionario` is empty after trim. -/
theorem c5_amended_party_never_validated (rows : List RawRow) :
    workingSet rows =
      (rows.filter (fun raw =>
          match toFloat raw.valor with
          | none => false
          | some q => decide (q ≠ 0))).map
        (fun raw => ⟨pyStrip raw.nome, (toFloat raw.valor).getD 0, raw.dataL, anoMesStr raw.dataL⟩) := by
  induction rows with
  | nil => rfl
  | cons raw t ih =>
    unfold workingSet at ih ⊢
    rw [List.filterMap_cons]
    rcases h : toFloat raw.valor with _ | q
    · simpa [mkRow?, h, List.filter_cons] using ih
    · by_cases hq : q = 0
      · subst hq
        simpa [mkRow?, h, List.filter_cons] using ih
      · simpa [mkRow?, h, hq, List.filter_cons] using ih

/-- C4: a row whose amount is unparseable (`NaN`) or parses to zero is
silently excluded from the working set — removing it leaves the working set,
its total and its count unchanged, with no row-level error anywhere. -/
theorem c4_zero_or_unparseable_row_excluded (pre post : List RawRow) (r : RawRow)
    (h : toFloat r.valor = none ∨ toFloat r.valor = some 0) :
    workingSet (pre ++ r :: post) = workingSet (pre ++ post) ∧
    total_pago (workingSet (pre ++ r :: post)) = total_pago (workingSet (pre ++ post)) ∧
    qtd_lanc (workingSet (pre ++ r :: post)) = qtd_lanc (workingSet (pre ++ post)) := by
  have key : workingSet (pre ++ r :: post) = workingSet (pre ++ post) := by
    unfold workingSet
    rw [List.filterMap_append, List.filterMap_append, List.filterMap_cons]
    rcases h with h | h
    · simp [mkRow?, h]
    · simp [mkRow?, h, List.filter_append, List.filter_cons]
  exact ⟨key, by rw [key], by rw [key]⟩

unseal Rat.add Rat.mul Rat.inv Rat.sub in
/-- Witness for C4: the scenario row with amount `"0,00"` parses to zero and
its removal leaves the working set unchanged. -/
theorem c4_witness :
    (toFloat (some "0,00") = none ∨ toFloat (some "0,00") = some 0) ∧
    workingSet [(⟨"X", some "0,00", none⟩ : RawRow), ⟨"B", some "10,00", none⟩] =
      workingSet [(⟨"B", some "10,00", none⟩ : RawRow)] :=
  ⟨Or.inr (by decide),
   (c4_zero_or_unparseable_row_excluded [] [⟨"B", some "10,00", none⟩]
      ⟨"X", some "0,00", none⟩ (Or.inr (by decide))).1⟩

/-- C1: the classifier is a pure function of the description string — after
lower-casing, the ordered rule sets are tested in priority order: the first
rule set with a keyword occurring in the description determines the category
(so of two matching rule sets the higher-priority one always wins), and with
no matching rule set the result is `"Uncategorized"`. -/
theorem c1_classifier_first_match :
    (∀ (pre rest : List (String × List String)) (cat : String) (kws : List String) (desc : String),
        (∀ rule ∈ pre, ruleMatches (desc.data.map lowerChar) rule = false) →
        ruleMatches (desc.data.map lowerChar) (cat, kws) = true →
        classify (pre ++ (cat, kws) :: rest) desc = cat) ∧
    (∀ (rules : List (String × List String)) (desc : String),
        (∀ rule ∈ rules, ruleMatches (desc.data.map lowerChar) rule = false) →
        classify rules desc = "Uncategorized") := by
  constructor
  · intro pre rest cat kws desc hpre hmatch
    unfold classify
    induction pre with
    | nil => simp [List.find?_cons, hmatch]
    | cons a pre' ih =>
      have ha := hpre a (by simp)
      rw [List.cons_append, List.find?_cons, ha]
      exact ih (fun rule hr => hpre rule (by simp [hr]))
  · intro rules desc hnone
    unfold classify
    induction rules with
    | nil => rfl
    | cons a rules' ih =>
      have ha := hnone a (by simp)
      rw [List.find?_cons, ha]
      exact ih (fun rule hr => hnone rule (by simp [hr]))

/-- Witness for C1: the spec's own §8 scenario — with the
maintenance-before-office rule order, `"compra de cimento e resma de papel"`
classifies as the structural category even though `"resma"`/`"papel"` also
match the office rule set. -/
theorem c1_witness :
    (∀ rule ∈ ([] : List (String × List String)),
        ruleMatches ("compra de cimento e resma de papel".data.map lowerChar) rule = false) ∧
    ruleMatches ("compra de cimento e resma de papel".data.map lowerChar)
      ("Manutencao", ["cimento", "tinta"]) = true ∧
    classify [("Manutencao", ["cimento", "tinta"]), ("Escritorio", ["papel", "resma", "tinta"])]
      "compra de cimento e resma de papel" = "Manutencao" :=
  ⟨by simp, by decide,
   c1_classifier_first_match.1 [] [("Escritorio", ["papel", "resma", "tinta"])]
     "Manutencao" ["cimento", "tinta"] "compra de cimento e resma de papel"
     (by simp) (by decide)⟩

end Ibem

namespace Ibem

/-- A digit character differs from any non-digit character. -/
theorem isDig_ne {c : Char} (x : Char) (h : isDig c = true) (hx : isDig x = false) :
    c ≠ x := by
  intro e
  rw [e, hx] at h
  cases h

/-- A digit character is not whitespace. -/
theorem isWS_false_of_isDig {c : Char} (h : isDig c = true) : isWS c = false := by
  cases hw : isWS c with
  | false => rfl
  | true =>
    exfalso
    unfold isWS at hw
    simp only [Bool.or_eq_true, decide_eq_true_eq] at hw
    rcases hw with ((((rfl | rfl) | rfl) | rfl) | rfl) | rfl <;> exact absurd h (by decide)

/-- `dropWhile` leaves a list alone when no element satisfies the predicate. -/
theorem dropWhile_eq_self_of_none (p : Char → Bool) (l : List Char)
    (h : ∀ c ∈ l, p c = false) : l.dropWhile p = l := by
  cases l with
  | nil => rfl
  | cons a t => simp [List.dropWhile_cons, h a (by simp)]

/-- `pyStripList` leaves a whitespace-free list alone. -/
theorem pyStripList_eq_self (l : List Char) (h : ∀ c ∈ l, isWS c = false) :
    pyStripList l = l := by
  unfold pyStripList lstrip rstrip
  rw [dropWhile_eq_self_of_none _ _ h]
  rw [dropWhile_eq_self_of_none _ _ (fun c hc => h c (List.mem_reverse.mp hc))]
  exact List.reverse_reverse l

/-- `stripCurrency` leaves a list alone when it contains no whitespace and
no `R`/`r`. -/
theorem stripCurrency_eq_self :
    ∀ (l : List Char), (∀ c ∈ l, isWS c = false ∧ c ≠ 'R' ∧ c ≠ 'r') →
      stripCurrency l = l
  | [], _ => rfl
  | [a], h => by
    obtain ⟨hw, -, -⟩ := h a (by simp)
    simp [stripCurrency, hw]
  | a :: b :: t, h => by
    obtain ⟨hw, hR, hr⟩ := h a (by simp)
    have hcond : ¬((a = 'R' ∨ a = 'r') ∧ b = '$') := by
      rintro ⟨hab, -⟩
      rcases hab with rfl | rfl
      · exact hR rfl
      · exact hr rfl
    have ht : stripCurrency (b :: t) = b :: t :=
      stripCurrency_eq_self (b :: t) (fun c hc => h c (List.mem_cons_of_mem _ hc))
    rw [show stripCurrency (a :: b :: t) =
          (if (a = 'R' ∨ a = 'r') ∧ b = '$' then stripCurrency t
           else if isWS a then stripCurrency (b :: t)
           else a :: stripCurrency (b :: t)) from rfl]
    rw [if_neg hcond, if_neg (by simp [hw]), ht]

/-- `takeWhile` over a satisfied block followed by a failing head. -/
theorem takeWhile_append_block (p : Char → Bool) (x : Char) (rest : List Char) :
    ∀ (a : List Char), (∀ c ∈ a, p c = true) → p x = false →
      (a ++ x :: rest).takeWhile p = a
  | [], _, hx => by simp [List.takeWhile_cons, hx]
  | c :: t, ha, hx => by
    have hc := ha c (by simp)
    have ih := takeWhile_append_block p x rest t (fun d hd => ha d (by simp [hd])) hx
    simp [List.cons_append, List.takeWhile_cons, hc, ih]

/-- `dropWhile` over a satisfied block followed by a failing head. -/
theorem dropWhile_append_block (p : Char → Bool) (x : Char) (rest : List Char) :
    ∀ (a : List Char), (∀ c ∈ a, p c = true) → p x = false →
      (a ++ x :: rest).dropWhile p = x :: rest
  | [], _, hx => by simp [List.dropWhile_cons, hx]
  | c :: t, ha, hx => by
    have hc := ha c (by simp)
    have ih := dropWhile_append_block p x rest t (fun d hd => ha d (by simp [hd])) hx
    simp [List.cons_append, List.dropWhile_cons, hc, ih]

/-- `takeWhile` keeps an all-satisfying list. -/
theorem takeWhile_eq_self_of_all (p : Char → Bool) :
    ∀ (l : List Char), (∀ c ∈ l, p c = true) → l.takeWhile p = l
  | [], _ => rfl
  | c :: t, h => by
    have hc := h c (by simp)
    have ih := takeWhile_eq_self_of_all p t (fun d hd => h d (by simp [hd]))
    simp [List.takeWhile_cons, hc, ih]

/-- `dropWhile` empties an all-satisfying list. -/
theorem dropWhile_eq_nil_of_all (p : Char → Bool) :
    ∀ (l : List Char), (∀ c ∈ l, p c = true) → l.dropWhile p = []
  | [], _ => rfl
  | c :: t, h => by
    have hc := h c (by simp)
    have ih := dropWhile_eq_nil_of_all p t (fun d hd => h d (by simp [hd]))
    simp [List.dropWhile_cons, hc, ih]

/-- Folding the digit-accumulator over a block shifts any initial value. -/
theorem digitsToNat_foldl (b : List Char) : ∀ (v : ℕ),
    b.foldl (fun a c => 10 * a + (c.toNat - 48)) v =
      v * 10 ^ b.length + digitsToNat b := by
  induction b with
  | nil => intro v; simp [digitsToNat]
  | cons c t ih =>
    intro v
    rw [List.foldl_cons, ih]
    have h2 : digitsToNat (c :: t) =
        (10 * 0 + (c.toNat - 48)) * 10 ^ t.length + digitsToNat t := by
      rw [show digitsToNat (c :: t) =
            List.foldl (fun a c => 10 * a + (c.toNat - 48)) (10 * 0 + (c.toNat - 48)) t from rfl,
          ih]
    rw [h2]
    simp only [List.length_cons, pow_succ]
    ring

/-- The numeric value of a concatenation of digit strings. -/
theorem digitsToNat_append (a b : List Char) :
    digitsToNat (a ++ b) = digitsToNat a * 10 ^ b.length + digitsToNat b := by
  unfold digitsToNat
  rw [List.foldl_append]
  exact digitsToNat_foldl b _

/-- Leading zeros do not change the numeric value. -/
theorem digitsToNat_replicate_zero (z : ℕ) :
    digitsToNat (List.replicate z '0') = 0 := by
  induction z with
  | zero => rfl
  | succ n ih =>
    have : digitsToNat (List.replicate (n + 1) '0') =
        List.foldl (fun a c => 10 * a + (c.toNat - 48)) (10 * 0 + ('0'.toNat - 48))
          (List.replicate n '0') := by
      rw [List.replicate_succ]; rfl
    rw [this, show (10 * 0 + ('0'.toNat - 48)) = 0 from by decide]
    exact ih

/-- The numeric value of a left-padded digit string. -/
theorem digitsToNat_padLeftZeros (w : ℕ) (l : List Char) :
    digitsToNat (padLeftZeros w l) = digitsToNat l := by
  unfold padLeftZeros
  rw [digitsToNat_append, digitsToNat_replicate_zero]
  simp

end Ibem

namespace Ibem

/-- A decimal digit as a character, back to its value. -/
theorem digitChar_val (r : ℕ) (h : r < 10) : (Nat.digitChar r).toNat - 48 = r := by
  interval_cases r <;> decide

/-- `Nat.digitChar` of a value below ten is a digit character. -/
theorem digitChar_isDig (r : ℕ) (h : r < 10) : isDig (Nat.digitChar r) = true := by
  interval_cases r <;> decide

/-- With enough fuel, `renderNatFuel` renders the number it was given. -/
theorem renderNatFuel_val : ∀ (fuel n : ℕ), n ≤ fuel →
    digitsToNat (renderNatFuel fuel n) = n
  | 0, n, h => by
    have : n = 0 := Nat.le_zero.mp h
    subst this
    rfl
  | fuel + 1, n, h => by
    by_cases h0 : n = 0
    · subst h0; rfl
    · have hdiv : n / 10 ≤ fuel := by
        have h1 : n / 10 < n := Nat.div_lt_self (Nat.pos_of_ne_zero h0) (by norm_num)
        omega
      rw [show renderNatFuel (fuel + 1) n =
            renderNatFuel fuel (n / 10) ++ [Nat.digitChar (n % 10)] from by
          rw [renderNatFuel]; simp [h0]]
      rw [digitsToNat_append, renderNatFuel_val fuel (n / 10) hdiv]
      have hm : n % 10 < 10 := Nat.mod_lt _ (by norm_num)
      have : digitsToNat [Nat.digitChar (n % 10)] = n % 10 := by
        unfold digitsToNat
        simp [digitChar_val _ hm]
      rw [this]
      simp only [List.length_singleton, pow_one]
      omega

/-- Every character `renderNatFuel` emits is a digit. -/
theorem renderNatFuel_digits : ∀ (fuel n : ℕ), ∀ c ∈ renderNatFuel fuel n, isDig c = true
  | 0, _, c, hc => by cases hc
  | fuel + 1, n, c, hc => by
    by_cases h0 : n = 0
    · subst h0; cases hc
    · rw [show renderNatFuel (fuel + 1) n =
            renderNatFuel fuel (n / 10) ++ [Nat.digitChar (n % 10)] from by
          rw [renderNatFuel]; simp [h0]] at hc
      rcases List.mem_append.mp hc with hmem | hmem
      · exact renderNatFuel_digits fuel (n / 10) c hmem
      · have : c = Nat.digitChar (n % 10) := by simpa using hmem
        subst this
        exact digitChar_isDig _ (Nat.mod_lt _ (by norm_num))

/-- `renderNat` renders the number it was given. -/
theorem renderNat_val (n : ℕ) : digitsToNat (renderNat n) = n := by
  unfold renderNat
  by_cases h0 : n = 0
  · subst h0; rfl
  · rw [if_neg h0]
    exact renderNatFuel_val n n le_rfl

/-- Every character `renderNat` emits is a digit. -/
theorem renderNat_digits (n : ℕ) : ∀ c ∈ renderNat n, isDig c = true := by
  unfold renderNat
  by_cases h0 : n = 0
  · subst h0; intro c hc; simp at hc; subst hc; decide
  · rw [if_neg h0]; exact renderNatFuel_digits n n

/-- Every character of a left-padded digit string is a digit. -/
theorem padLeftZeros_digits (w : ℕ) (l : List Char) (h : ∀ c ∈ l, isDig c = true) :
    ∀ c ∈ padLeftZeros w l, isDig c = true := by
  intro c hc
  unfold padLeftZeros at hc
  rcases List.mem_append.mp hc with hmem | hmem
  · have : c = '0' := List.eq_of_mem_replicate hmem
    subst this; decide
  · exact h c hmem

/-- Left-padding reaches the requested width. -/
theorem padLeftZeros_length (w : ℕ) (l : List Char) :
    w ≤ (padLeftZeros w l).length := by
  unfold padLeftZeros
  rw [List.length_append, List.length_replicate]
  omega

/-- `parseUnsigned?` on a pure digit string. -/
theorem parseUnsigned_all_digits (l : List Char) (h : ∀ c ∈ l, isDig c = true)
    (hne : l ≠ []) : parseUnsigned? l = some (digitsToNat l : ℚ) := by
  unfold parseUnsigned?
  rw [takeWhile_eq_self_of_all _ _ h, dropWhile_eq_nil_of_all _ _ h]
  simp [List.isEmpty_iff, hne]

/-- `parseUnsigned?` on an integer part, a period and a fractional part. -/
theorem parseUnsigned_digits_dot (ip fp : List Char)
    (hip : ∀ c ∈ ip, isDig c = true) (hfp : ∀ c ∈ fp, isDig c = true)
    (hne : ip ≠ []) :
    parseUnsigned? (ip ++ '.' :: fp) =
      some ((digitsToNat ip : ℚ) + (digitsToNat fp : ℚ) / 10 ^ fp.length) := by
  unfold parseUnsigned?
  rw [takeWhile_append_block _ _ _ _ hip (by decide),
      dropWhile_append_block _ _ _ _ hip (by decide)]
  simp [List.all_eq_true, List.isEmpty_iff, hne]
  exact hfp

end Ibem

namespace Ibem

/-- `afterGroups` rejects a head that is neither `','` nor `'.'`. -/
theorem afterGroups_ne_sep (x : Char) (t : List Char) (h1 : x ≠ ',') (h2 : x ≠ '.') :
    afterGroups (x :: t) = false := by
  rw [afterGroups.eq_def]
  split
  · simp_all
  · simp_all
  · rfl

/-- `afterGroups` rejects a pure digit string. -/
theorem afterGroups_digits (l : List Char) (h : ∀ c ∈ l, isDig c = true) :
    afterGroups l = false := by
  cases l with
  | nil => rfl
  | cons a t =>
    exact afterGroups_ne_sep a t (isDig_ne ',' (h a (by simp)) (by decide))
      (isDig_ne '.' (h a (by simp)) (by decide))

/-- The cents case of `afterGroups`, as an equation. -/
theorem afterGroups_comma_eq (d e : Char) :
    afterGroups (',' :: d :: e :: []) = (isDig d && isDig e) := rfl

/-- The group case of `afterGroups`, as an equation. -/
theorem afterGroups_group_eq (a b c : Char) (rest : List Char) :
    afterGroups ('.' :: a :: b :: c :: rest) =
      (isDig a && isDig b && isDig c && afterGroups rest) := rfl

/-- The group case of `firstGroup`, as an equation. -/
theorem firstGroup_cons_eq (a b c : Char) (rest : List Char) :
    firstGroup ('.' :: a :: b :: c :: rest) =
      (isDig a && isDig b && isDig c && afterGroups rest) := rfl

/-- `firstGroup` rejects a period followed by digits only. -/
theorem firstGroup_dot_digits (fp : List Char) (h : ∀ c ∈ fp, isDig c = true) :
    firstGroup ('.' :: fp) = false := by
  match fp, h with
  | [], _ => rfl
  | [a], _ => rfl
  | [a, b], _ => rfl
  | a :: b :: c :: rest, h =>
    rw [firstGroup_cons_eq, afterGroups_digits rest (fun d hd => h d (by simp [hd]))]
    simp

/-- `afterGroups` accepts the dot-groups-then-cents body. -/
theorem afterGroups_body (c1 c2 : Char) (hc1 : isDig c1 = true) (hc2 : isDig c2 = true) :
    ∀ (gs : List (List Char)), (∀ g ∈ gs, g.length = 3 ∧ ∀ c ∈ g, isDig c = true) →
      afterGroups ((gs.map (fun g => '.' :: g)).flatten ++ ',' :: [c1, c2]) = true
  | [], _ => by
    simp only [List.map_nil, List.flatten_nil, List.nil_append]
    rw [afterGroups_comma_eq, hc1, hc2]
    rfl
  | g :: gs', h => by
    obtain ⟨hlen, hdig⟩ := h g (by simp)
    obtain ⟨a, b, c, rfl⟩ := List.length_eq_three.mp hlen
    have ih := afterGroups_body c1 c2 hc1 hc2 gs' (fun g' hg' => h g' (by simp [hg']))
    simp only [List.map_cons, List.flatten_cons, List.cons_append, List.append_assoc,
      List.nil_append]
    rw [afterGroups_group_eq, hdig a (by simp), hdig b (by simp), hdig c (by simp), ih]
    rfl

/-- The grouped-thousands body passes the pt-BR regex test. -/
theorem matchesPtBR_body (g0 : List Char) (gs : List (List Char)) (c1 c2 : Char)
    (hg0ne : g0 ≠ []) (hg0len : g0.length ≤ 3) (hg0dig : ∀ c ∈ g0, isDig c = true)
    (hgsne : gs ≠ []) (hgs : ∀ g ∈ gs, g.length = 3 ∧ ∀ c ∈ g, isDig c = true)
    (hc1 : isDig c1 = true) (hc2 : isDig c2 = true) :
    matchesPtBR (ptBRBody g0 gs c1 c2) = true := by
  obtain ⟨g, gs', rfl⟩ : ∃ g gs', gs = g :: gs' := by
    cases gs with
    | nil => exact absurd rfl hgsne
    | cons g gs' => exact ⟨g, gs', rfl⟩
  obtain ⟨hlen, hdig⟩ := hgs g (by simp)
  obtain ⟨a, b, c, rfl⟩ := List.length_eq_three.mp hlen
  have hbody : ptBRBody g0 ([a, b, c] :: gs') c1 c2 =
      g0 ++ '.' :: (a :: b :: c :: ((gs'.map (fun g => '.' :: g)).flatten ++ ',' :: [c1, c2])) := by
    unfold ptBRBody
    simp [List.append_assoc]
  rw [hbody]
  unfold matchesPtBR
  rw [takeWhile_append_block _ _ _ g0 hg0dig (by decide),
      dropWhile_append_block _ _ _ g0 hg0dig (by decide)]
  rw [firstGroup_cons_eq, hdig a (by simp), hdig b (by simp), hdig c (by simp)]
  rw [afterGroups_body c1 c2 hc1 hc2 gs' (fun g' hg' => hgs g' (by simp [hg']))]
  have h1 : 1 ≤ g0.length := List.length_pos.mpr hg0ne
  simp [h1, hg0len]

/-- A list of non-period characters survives the period filter. -/
theorem filter_not_dot_digits (l : List Char) (h : ∀ c ∈ l, isDig c = true) :
    l.filter (fun c => !(c == '.')) = l := by
  rw [List.filter_eq_self]
  intro a ha
  have := isDig_ne '.' (h a ha) (by decide)
  simp [this]

/-- The period filter erases exactly the group separators. -/
theorem filter_dot_groups :
    ∀ (gs : List (List Char)), (∀ g ∈ gs, ∀ c ∈ g, isDig c = true) →
      ((gs.map (fun g => '.' :: g)).flatten).filter (fun c => !(c == '.')) = gs.flatten
  | [], _ => rfl
  | g :: gs', h => by
    have hg := filter_not_dot_digits g (h g (by simp))
    have ih := filter_dot_groups gs' (fun g' hg' c hc => h g' (by simp [hg']) c hc)
    simp [List.filter_append, List.filter_cons, hg, ih]

/-- The period filter on the full pt-BR body. -/
theorem filter_dot_body (g0 : List Char) (gs : List (List Char)) (c1 c2 : Char)
    (hg0 : ∀ c ∈ g0, isDig c = true) (hgs : ∀ g ∈ gs, ∀ c ∈ g, isDig c = true)
    (hc1 : isDig c1 = true) (hc2 : isDig c2 = true) :
    (ptBRBody g0 gs c1 c2).filter (fun c => !(c == '.')) =
      g0 ++ gs.flatten ++ ',' :: [c1, c2] := by
  unfold ptBRBody
  rw [List.filter_append, List.filter_append]
  rw [filter_not_dot_digits g0 hg0, filter_dot_groups gs hgs]
  have h1 := isDig_ne '.' hc1 (by decide)
  have h2 := isDig_ne '.' hc2 (by decide)
  simp [List.filter_cons, h1, h2]

/-- A list of non-comma characters survives the comma replacement. -/
theorem map_comma_eq_self (l : List Char) (h : ∀ c ∈ l, c ≠ ',') :
    l.map (fun c => if c = ',' then '.' else c) = l := by
  induction l with
  | nil => rfl
  | cons a t ih =>
    rw [List.map_cons, if_neg (h a (by simp)), ih (fun c hc => h c (by simp [hc]))]

/-- The comma replacement on the dotless pt-BR body yields a decimal string. -/
theorem map_comma_body (g0 : List Char) (gs : List (List Char)) (c1 c2 : Char)
    (hg0 : ∀ c ∈ g0, isDig c = true) (hgs : ∀ g ∈ gs, ∀ c ∈ g, isDig c = true)
    (hc1 : isDig c1 = true) (hc2 : isDig c2 = true) :
    (g0 ++ gs.flatten ++ ',' :: [c1, c2]).map (fun c => if c = ',' then '.' else c) =
      (g0 ++ gs.flatten) ++ '.' :: [c1, c2] := by
  rw [List.map_append, List.map_append]
  rw [map_comma_eq_self g0 (fun c hc => isDig_ne ',' (hg0 c hc) (by decide))]
  rw [map_comma_eq_self gs.flatten
      (fun c hc => by
        obtain ⟨g, hgmem, hcg⟩ := List.mem_flatten.mp hc
        exact isDig_ne ',' (hgs g hgmem c hcg) (by decide))]
  have h1 := isDig_ne ',' hc1 (by decide)
  have h2 := isDig_ne ',' hc2 (by decide)
  simp [h1, h2, List.append_assoc]

/-- `parseDecimal?` passes an unsigned string through to `parseUnsigned?`. -/
theorem parseDecimal_no_sign (a : Char) (r : List Char) (h1 : a ≠ '+') (h2 : a ≠ '-') :
    parseDecimal? (a :: r) = parseUnsigned? (a :: r) := by
  rw [show parseDecimal? (a :: r) =
        (if a = '+' then parseUnsigned? r
         else if a = '-' then (parseUnsigned? r).map (fun q => -q)
         else parseUnsigned? (a :: r)) from rfl]
  rw [if_neg h1, if_neg h2]

end Ibem

namespace Ibem

/-- The pt-BR branch of `_to_float`, end to end: on a grouped-thousands body
the parser returns integer digits plus cents over one hundred. -/
theorem toFloatText_ptBR (g0 : List Char) (gs : List (List Char)) (c1 c2 : Char)
    (hg0ne : g0 ≠ []) (hg0len : g0.length ≤ 3) (hg0dig : ∀ c ∈ g0, isDig c = true)
    (hgsne : gs ≠ []) (hgs : ∀ g ∈ gs, g.length = 3 ∧ ∀ c ∈ g, isDig c = true)
    (hc1 : isDig c1 = true) (hc2 : isDig c2 = true) :
    toFloatText (ptBRBody g0 gs c1 c2) =
      some ((digitsToNat (g0 ++ gs.flatten) : ℚ) + (digitsToNat [c1, c2] : ℚ) / 100) := by
  have hgs' : ∀ g ∈ gs, ∀ c ∈ g, isDig c = true := fun g hg => (hgs g hg).2
  unfold toFloatText
  rw [matchesPtBR_body g0 gs c1 c2 hg0ne hg0len hg0dig hgsne hgs hc1 hc2]
  rw [if_pos rfl]
  rw [filter_dot_body g0 gs c1 c2 hg0dig hgs' hc1 hc2]
  rw [map_comma_body g0 gs c1 c2 hg0dig hgs' hc1 hc2]
  obtain ⟨h0, t0, rfl⟩ : ∃ h0 t0, g0 = h0 :: t0 := by
    cases g0 with
    | nil => exact absurd rfl hg0ne
    | cons h0 t0 => exact ⟨h0, t0, rfl⟩
  have hd0 : isDig h0 = true := hg0dig h0 (by simp)
  rw [List.cons_append, List.cons_append]
  rw [parseDecimal_no_sign h0 _ (isDig_ne '+' hd0 (by decide)) (isDig_ne '-' hd0 (by decide))]
  rw [← List.cons_append]
  rw [parseUnsigned_digits_dot (h0 :: (t0 ++ gs.flatten)) [c1, c2]
      (by
        intro c hc
        rcases List.mem_cons.mp hc with rfl | hc2'
        · exact hd0
        · rcases List.mem_append.mp hc2' with hmem | hmem
          · exact hg0dig c (by simp [hmem])
          · obtain ⟨g, hgm, hcg⟩ := List.mem_flatten.mp hmem
            exact hgs' g hgm c hcg)
      (by
        intro c hc
        rcases List.mem_cons.mp hc with rfl | hc'
        · exact hc1
        · have : c = c2 := by simpa using hc'
          subst this; exact hc2)
      (by simp)]
  norm_num

/-- C2: for every textual amount that — after currency-symbol and whitespace
stripping — has the grouped-thousands pt-BR shape `\d{1,3}(\.\d{3})+,\d{2}`,
the parser returns the value read by treating `.` as a thousands separator
and `,` as the decimal point: all integer digits, plus the two cent digits
over one hundred. -/
theorem c2_grouped_thousands_parse (s : String) (g0 : List Char)
    (gs : List (List Char)) (c1 c2 : Char)
    (hg0ne : g0 ≠ []) (hg0len : g0.length ≤ 3) (hg0dig : ∀ c ∈ g0, isDig c = true)
    (hgsne : gs ≠ []) (hgs : ∀ g ∈ gs, g.length = 3 ∧ ∀ c ∈ g, isDig c = true)
    (hc1 : isDig c1 = true) (hc2 : isDig c2 = true)
    (hstrip : stripCurrency (pyStripList s.data) = ptBRBody g0 gs c1 c2) :
    toFloat (some s) =
      some ((digitsToNat (g0 ++ gs.flatten) : ℚ) + (digitsToNat [c1, c2] : ℚ) / 100) := by
  rw [show toFloat (some s) = toFloatText (stripCurrency (pyStripList s.data)) from rfl, hstrip]
  exact toFloatText_ptBR g0 gs c1 c2 hg0ne hg0len hg0dig hgsne hgs hc1 hc2

unseal Rat.add Rat.mul Rat.inv Rat.sub in
/-- Witness for C2: `"R$ 1.234,56"` strips to the pattern body
`1.234,56` and parses to `1234 + 56/100 = 1234.56`. -/
theorem c2_witness :
    stripCurrency (pyStripList "R$ 1.234,56".data) = ptBRBody ['1'] [['2', '3', '4']] '5' '6' ∧
    toFloat (some "R$ 1.234,56") =
      some ((digitsToNat (['1'] ++ [['2', '3', '4']].flatten) : ℚ) +
        (digitsToNat ['5', '6'] : ℚ) / 100) ∧
    (digitsToNat (['1'] ++ [['2', '3', '4']].flatten) : ℚ) +
        (digitsToNat ['5', '6'] : ℚ) / 100 = (123456 : ℚ) / 100 :=
  ⟨by decide,
   c2_grouped_thousands_parse "R$ 1.234,56" ['1'] [['2', '3', '4']] '5' '6'
     (by decide) (by decide) (by decide) (by decide) (by decide) (by decide) (by decide)
     (by decide),
   by decide⟩

end Ibem

namespace Ibem

/-- `dropWhile` is the identity when the head does not satisfy the predicate. -/
theorem dropWhile_eq_self_of_head (p : Char → Bool) (l : List Char)
    (h : ∀ c, l.head? = some c → p c = false) : l.dropWhile p = l := by
  cases l with
  | nil => rfl
  | cons a t => rw [List.dropWhile_cons, if_neg (by simp [h a rfl])]

/-- The head surviving a `dropWhile` does not satisfy the predicate. -/
theorem dropWhile_head_not (p : Char → Bool) : ∀ (l : List Char) (c : Char),
    (l.dropWhile p).head? = some c → p c = false
  | [], c, h => by cases h
  | a :: t, c, h => by
    rw [List.dropWhile_cons] at h
    by_cases hp : p a
    · rw [if_pos hp] at h
      exact dropWhile_head_not p t c h
    · rw [if_neg hp] at h
      have : a = c := by simpa using h
      subst this
      exact Bool.eq_false_iff.mpr hp

/-- Left-stripping is idempotent. -/
theorem lstrip_idem (l : List Char) : lstrip (lstrip l) = lstrip l := by
  unfold lstrip
  exact dropWhile_eq_self_of_head _ _ (fun c hc => dropWhile_head_not _ _ c hc)

/-- Right-stripping is idempotent. -/
theorem rstrip_idem (l : List Char) : rstrip (rstrip l) = rstrip l := by
  unfold rstrip
  rw [List.reverse_reverse]
  rw [dropWhile_eq_self_of_head _ _ (fun c hc => dropWhile_head_not _ _ c hc)]

/-- Right-stripping preserves a whitespace-free head. -/
theorem rstrip_head_not_ws (u : List Char)
    (hu : ∀ c, u.head? = some c → isWS c = false) :
    ∀ c, (rstrip u).head? = some c → isWS c = false := by
  intro c hc
  unfold rstrip at hc
  rw [List.head?_reverse] at hc
  obtain ⟨t, ht⟩ := List.dropWhile_suffix (l := u.reverse) isWS
  have hval : (u.reverse.dropWhile isWS).getLast? = some c := hc
  have : (u.reverse).getLast? = some c := by
    rw [← ht, List.getLast?_append, hval]
    rfl
  rw [List.getLast?_reverse] at this
  exact hu c this

/-- Python `strip` is idempotent. -/
theorem pyStripList_idem (l : List Char) : pyStripList (pyStripList l) = pyStripList l := by
  unfold pyStripList
  have h1 : lstrip (rstrip (lstrip l)) = rstrip (lstrip l) := by
    unfold lstrip
    refine dropWhile_eq_self_of_head _ _ ?_
    refine rstrip_head_not_ws (lstrip l) ?_
    exact fun c hc => dropWhile_head_not _ _ c hc
  rw [h1, rstrip_idem]

/-- `pyStrip` is idempotent on strings. -/
theorem pyStrip_idem (s : String) : pyStrip (pyStrip s) = pyStrip s := by
  unfold pyStrip
  rw [show (String.mk (pyStripList s.data)).data = pyStripList s.data from rfl]
  rw [pyStripList_idem]

/-- `matchesPtBR` rejects a pure digit string. -/
theorem matchesPtBR_digits (l : List Char) (h : ∀ c ∈ l, isDig c = true) :
    matchesPtBR l = false := by
  unfold matchesPtBR
  rw [dropWhile_eq_nil_of_all _ _ h]
  rw [show firstGroup [] = false from rfl]
  simp

/-- `matchesPtBR` rejects `digits.digits`. -/
theorem matchesPtBR_digits_dot (ip fp : List Char) (hip : ∀ c ∈ ip, isDig c = true)
    (hfp : ∀ c ∈ fp, isDig c = true) :
    matchesPtBR (ip ++ '.' :: fp) = false := by
  unfold matchesPtBR
  rw [dropWhile_append_block _ _ _ _ hip (by decide)]
  rw [firstGroup_dot_digits fp hfp]
  simp

/-- `matchesPtBR` rejects anything starting with a minus sign. -/
theorem matchesPtBR_neg (l : List Char) : matchesPtBR ('-' :: l) = false := by
  have h : ('-' :: l).takeWhile isDig = [] := by
    rw [List.takeWhile_cons]
    simp [show isDig '-' = false from by decide]
  unfold matchesPtBR
  rw [h]
  simp

/-- A comma-free list fails the comma test. -/
theorem any_comma_eq_false (l : List Char) (h : ∀ c ∈ l, c ≠ ',') :
    l.any (fun c => c == ',') = false := by
  rw [List.any_eq_false]
  intro c hc
  simp [h c hc]

/-- The period count of a period-free list. -/
theorem count_dot_zero (l : List Char) (h : ∀ c ∈ l, c ≠ '.') : l.count '.' = 0 := by
  rw [List.count_eq_zero]
  intro hmem
  exact h '.' hmem rfl

/-- The period count of `digits.digits` is one. -/
theorem count_dot_one (ip fp : List Char) (hip : ∀ c ∈ ip, c ≠ '.')
    (hfp : ∀ c ∈ fp, c ≠ '.') : (ip ++ '.' :: fp).count '.' = 1 := by
  rw [List.count_append, count_dot_zero ip hip, List.count_cons, count_dot_zero fp hfp]
  simp

/-- On text failing the pt-BR test with no comma and at most one period,
`_to_float` is plain `float()` parsing. -/
theorem toFloatText_plain (txt : List Char)
    (hm : matchesPtBR txt = false)
    (hcomma : txt.any (fun c => c == ',') = false)
    (hdot : ¬ txt.count '.' > 1) :
    toFloatText txt = parseDecimal? txt := by
  unfold toFloatText
  rw [hm, hcomma]
  simp [hdot]

end Ibem

namespace Ibem

/-- The rendered digit body: its characters, regex/comma/period behavior,
nonemptiness, leading digit, and its `float()` value `n / 10^k`. -/
theorem renderDecDigits_spec (n k : ℕ) :
    (∀ c ∈ renderDecDigits n k, isDig c = true ∨ c = '.') ∧
    matchesPtBR (renderDecDigits n k) = false ∧
    renderDecDigits n k ≠ [] ∧
    (∀ c, (renderDecDigits n k).head? = some c → isDig c = true) ∧
    (renderDecDigits n k).count '.' ≤ 1 ∧
    parseUnsigned? (renderDecDigits n k) = some ((n : ℚ) / 10 ^ k) := by
  have hdig : ∀ c ∈ padLeftZeros (k + 1) (renderNat n), isDig c = true :=
    padLeftZeros_digits _ _ (renderNat_digits _)
  have hval : digitsToNat (padLeftZeros (k + 1) (renderNat n)) = n := by
    rw [digitsToNat_padLeftZeros, renderNat_val]
  have hlen : k + 1 ≤ (padLeftZeros (k + 1) (renderNat n)).length :=
    padLeftZeros_length _ _
  by_cases hk : k = 0
  · subst hk
    unfold renderDecDigits
    rw [if_pos rfl]
    have hne : padLeftZeros (0 + 1) (renderNat n) ≠ [] := by
      intro he
      rw [he] at hlen
      simp at hlen
    refine ⟨fun c hc => Or.inl (hdig c hc), matchesPtBR_digits _ hdig, hne, ?_, ?_, ?_⟩
    · intro c hc
      exact hdig c (List.mem_of_mem_head? hc)
    · rw [count_dot_zero _ (fun c hc => isDig_ne '.' (hdig c hc) (by decide))]
      norm_num
    · rw [parseUnsigned_all_digits _ hdig hne, hval]
      norm_num
  · unfold renderDecDigits
    rw [if_neg hk]
    set digs := padLeftZeros (k + 1) (renderNat n) with hdigs
    set ip := digs.take (digs.length - k) with hip_def
    set fp := digs.drop (digs.length - k) with hfp_def
    have hip : ∀ c ∈ ip, isDig c = true := fun c hc => hdig c (List.take_subset _ _ hc)
    have hfp : ∀ c ∈ fp, isDig c = true := fun c hc => hdig c (List.drop_subset _ _ hc)
    have hiplen : ip.length = digs.length - k := by
      rw [hip_def, List.length_take]
      omega
    have hfplen : fp.length = k := by
      rw [hfp_def, List.length_drop]
      omega
    have hipne : ip ≠ [] := by
      intro he
      rw [he] at hiplen
      simp at hiplen
      omega
    have hsum : digitsToNat ip * 10 ^ k + digitsToNat fp = n := by
      have happ := digitsToNat_append ip fp
      rw [hip_def, hfp_def, List.take_append_drop] at happ
      rw [← hip_def, ← hfp_def, hfplen] at happ
      omega
    refine ⟨?_, matchesPtBR_digits_dot ip fp hip hfp, by simp, ?_, ?_, ?_⟩
    · intro c hc
      rcases List.mem_append.mp hc with hm | hm
      · exact Or.inl (hip c hm)
      · rcases List.mem_cons.mp hm with rfl | hm2
        · exact Or.inr rfl
        · exact Or.inl (hfp c hm2)
    · intro c hc
      obtain ⟨d, ds, hcons⟩ : ∃ d ds, ip = d :: ds := by
        cases hip2 : ip with
        | nil => exact absurd hip2 hipne
        | cons d ds => exact ⟨d, ds, rfl⟩
      rw [hcons, List.cons_append] at hc
      have : d = c := by simpa using hc
      subst this
      exact hip d (by simp [hcons])
    · rw [count_dot_one ip fp (fun c hc => isDig_ne '.' (hip c hc) (by decide))
          (fun c hc => isDig_ne '.' (hfp c hc) (by decide))]
    · rw [parseUnsigned_digits_dot ip fp hip hfp hipne, hfplen]
      congr 1
      have hten : (10 : ℚ) ^ k ≠ 0 := by positivity
      field_simp
      exact_mod_cast hsum

end Ibem

namespace Ibem

/-- C9: export/re-ingest round-trip — the exporter emits a monetary value in
raw decimal form (`renderDec m k` is the exact value `m / 10^k`, not the
`R$`-formatted display string), and re-ingesting through the same normalizer
recovers exactly that value; the party column, already trimmed, is unchanged
by the re-ingest trim.  Every working-set amount is a finite sum of parsed
decimals, hence of the form `m / 10^k`. -/
theorem c9_export_roundtrip (m : ℤ) (k : ℕ) (s : String) :
    toFloat (some (renderDec m k)) = some ((m : ℚ) / 10 ^ k) ∧
    pyStrip (pyStrip s) = pyStrip s := by
  refine ⟨?_, pyStrip_idem s⟩
  obtain ⟨hmem, hmatch, hne, hhead, hcount, hparse⟩ := renderDecDigits_spec m.natAbs k
  have hgoodbody : ∀ c ∈ renderDecDigits m.natAbs k, isWS c = false ∧ c ≠ 'R' ∧ c ≠ 'r' := by
    intro c hc
    rcases hmem c hc with hd | rfl
    · exact ⟨isWS_false_of_isDig hd, isDig_ne 'R' hd (by decide), isDig_ne 'r' hd (by decide)⟩
    · exact ⟨by decide, by decide, by decide⟩
  have hcommabody : ∀ c ∈ renderDecDigits m.natAbs k, c ≠ ',' := by
    intro c hc
    rcases hmem c hc with hd | rfl
    · exact isDig_ne ',' hd (by decide)
    · decide
  by_cases hm : m < 0
  · have hX : renderDec m k = String.mk ('-' :: renderDecDigits m.natAbs k) := by
      unfold renderDec
      rw [if_pos hm]
    rw [hX]
    rw [show toFloat (some (String.mk ('-' :: renderDecDigits m.natAbs k))) =
          toFloatText (stripCurrency (pyStripList ('-' :: renderDecDigits m.natAbs k))) from rfl]
    have hgood : ∀ c ∈ '-' :: renderDecDigits m.natAbs k, isWS c = false ∧ c ≠ 'R' ∧ c ≠ 'r' := by
      intro c hc
      rcases List.mem_cons.mp hc with rfl | hc2
      · exact ⟨by decide, by decide, by decide⟩
      · exact hgoodbody c hc2
    rw [pyStripList_eq_self _ (fun c hc => (hgood c hc).1), stripCurrency_eq_self _ hgood]
    have hcomma : ∀ c ∈ '-' :: renderDecDigits m.natAbs k, c ≠ ',' := by
      intro c hc
      rcases List.mem_cons.mp hc with rfl | hc2
      · decide
      · exact hcommabody c hc2
    have hdot : ¬ ('-' :: renderDecDigits m.natAbs k).count '.' > 1 := by
      rw [List.count_cons]
      simp only [show (('-' : Char) == '.') = false from by decide, Bool.false_eq_true,
        if_false, Nat.add_zero]
      omega
    rw [toFloatText_plain _ (matchesPtBR_neg _) (any_comma_eq_false _ hcomma) hdot]
    rw [show parseDecimal? ('-' :: renderDecDigits m.natAbs k) =
          (parseUnsigned? (renderDecDigits m.natAbs k)).map (fun q => -q) from by
        rw [show parseDecimal? ('-' :: renderDecDigits m.natAbs k) =
              (if '-' = '+' then parseUnsigned? (renderDecDigits m.natAbs k)
               else if '-' = '-' then
                 (parseUnsigned? (renderDecDigits m.natAbs k)).map (fun q => -q)
               else parseUnsigned? ('-' :: renderDecDigits m.natAbs k)) from rfl]
        rw [if_neg (by decide), if_pos rfl]]
    rw [hparse, Option.map_some']
    have habs : ((m.natAbs : ℚ)) = -(m : ℚ) := by
      have h1 : (m.natAbs : ℤ) = -m := by omega
      have h2 := congrArg (fun z : ℤ => (z : ℚ)) h1
      simpa only [Int.cast_natCast, Int.cast_neg] using h2
    congr 1
    rw [habs]
    ring
  · have hX : renderDec m k = String.mk (renderDecDigits m.natAbs k) := by
      unfold renderDec
      rw [if_neg hm]
    rw [hX]
    rw [show toFloat (some (String.mk (renderDecDigits m.natAbs k))) =
          toFloatText (stripCurrency (pyStripList (renderDecDigits m.natAbs k))) from rfl]
    rw [pyStripList_eq_self _ (fun c hc => (hgoodbody c hc).1),
        stripCurrency_eq_self _ hgoodbody]
    have hdot : ¬ (renderDecDigits m.natAbs k).count '.' > 1 := by omega
    rw [toFloatText_plain _ hmatch (any_comma_eq_false _ hcommabody) hdot]
    obtain ⟨d, ds, hcons⟩ : ∃ d ds, renderDecDigits m.natAbs k = d :: ds := by
      cases h2 : renderDecDigits m.natAbs k with
      | nil => exact absurd h2 hne
      | cons d ds => exact ⟨d, ds, rfl⟩
    have hd : isDig d = true := hhead d (by rw [hcons]; rfl)
    rw [hcons]
    rw [parseDecimal_no_sign d ds (isDig_ne '+' hd (by decide)) (isDig_ne '-' hd (by decide))]
    rw [← hcons, hparse]
    have habs : ((m.natAbs : ℚ)) = (m : ℚ) := by
      have h1 : (m.natAbs : ℤ) = m := Int.natAbs_of_nonneg (by omega)
      have h2 := congrArg (fun z : ℤ => (z : ℚ)) h1
      simpa only [Int.cast_natCast] using h2
    rw [habs]

end Ibem
